import Mathlib

/-!
Shallow embedding of tinyosc (`src/tinyosc.c`), the OSC 1.0 message codec.

Modelling conventions:

* The message buffer is a total function `Nat → Nat` from byte offsets to
  byte values; concrete buffers store values below 256.  Pointers into the
  buffer are modelled as offsets from its start (`o->address` is always the
  start of the buffer, so the C expression `o->address + o->len` becomes
  plain `o.len`).
* C `int` / `int32_t` values are modelled as `Int`, with the cast of a
  `uint32_t` to a signed type made explicit by `toInt32` (two's-complement
  reduction mod `2^32`).
* C `float` values are modelled by their 32-bit IEEE-754 bit patterns: the
  code only ever transports the pattern (`htonl`/`ntohl` on the reinterpreted
  bits), it never performs floating-point arithmetic.  In particular the
  pattern `0x3F000000 = 1056964608` is the IEEE-754 encoding of `0.5`.
* The in-buffer scanning loops `while (i < len && buffer[i] != c) ++i` are
  modelled by `strscan` with the remaining iteration count `len - i` made
  explicit as structural fuel.
* `strlen(o->marker)` (an unbounded scan in C) is modelled by `strlenAt`,
  the distance to the first null byte before `o.len`; when no null byte
  occurs below `o.len` the model returns `o.len - o.marker`, for which the
  subsequent bounds check `o.marker + i >= o.len` in `tosc_getNextString`
  fails exactly as it does for every actual terminator position at or past
  `o.len`, so the observable result is unchanged.
* Error codes follow the C returns: `tosc_read` uses `-1`
  (MissingFormatDelimiter) and `-2` (UnterminatedFormatString); `tosc_write`
  uses `-1` (AddressTooLong), `-2` (FormatTooLong), `-3` (ArgumentOverflow),
  `-4` (UnknownFormatTag).  The code `-5` is the model's marker for the C
  undefined behaviour of a variadic list that does not match the format
  string (no corresponding branch exists in the source).
-/

deriving instance DecidableEq for Except

/-- Clearing the two low bits of a nonnegative value: the C expression
`n & ~0x3`. -/
def align4 (n : Nat) : Nat := n / 4 * 4

/-- Two's-complement reading of a 32-bit value, modelling the C casts
`(int32_t)` / `(int)` applied to a `uint32_t`. -/
def toInt32 (n : Nat) : Int :=
  if n % 4294967296 < 2147483648 then ((n % 4294967296 : Nat) : Int)
  else ((n % 4294967296 : Nat) : Int) - 4294967296

/-- Bounded byte scan `while (i < len && buffer[i] != target) ++i`, with the
remaining iteration count `len - i` passed as structural fuel: `strscan mem
target (len - i) i` is the first offset `j ≥ i` with `mem j = target` when
one exists below `len`, and `len` otherwise (assuming `i ≤ len`). -/
def strscan (mem : Nat → Nat) (target : Nat) : Nat → Nat → Nat
  | 0, i => i
  | f + 1, i => if mem i = target then i else strscan mem target f (i + 1)

/-- Big-endian 32-bit load `ntohl(*((uint32_t *) (buffer + p)))`. -/
def readU32BE (mem : Nat → Nat) (p : Nat) : Nat :=
  mem p * 16777216 + mem (p + 1) * 65536 + mem (p + 2) * 256 + mem (p + 3)

/-- List of the `n` bytes starting at offset `p`. -/
def readBytes (mem : Nat → Nat) (p : Nat) : Nat → List Nat
  | 0 => []
  | n + 1 => mem p :: readBytes mem (p + 1) n

/-- The `tosc_tinyosc` struct.  `format` and `marker` are offsets into the
buffer; the C fields `address` and `buffer` both always hold the start of
the buffer (offset 0) and are omitted. -/
structure tosc_tinyosc where
  format : Nat
  marker : Nat
  len : Nat
  deriving DecidableEq

/-- Modelled `strlen(buffer + p)` as used by `tosc_getNextString`: distance
from `p` to the first null byte below `len` (see the module comment for the
treatment of buffers with no null byte below `len`). -/
def strlenAt (mem : Nat → Nat) (len p : Nat) : Nat :=
  strscan mem 0 (len - p) p - p

/-- The first-comma offset computed by the first loop of `tosc_read`. -/
def commaIdx (mem : Nat → Nat) (len : Nat) : Nat :=
  strscan mem 44 len 0

/-- The format-terminator offset computed by the second loop of `tosc_read`
(first null byte at or after the comma). -/
def fmtNullIdx (mem : Nat → Nat) (len : Nat) : Nat :=
  strscan mem 0 (len - commaIdx mem len) (commaIdx mem len)

/-- Model of `tosc_read`: find the format comma (else `-1`), find the null
terminating the format string (else `-2`), and place the marker at the next
multiple of 4 after the terminator. -/
def tosc_read (mem : Nat → Nat) (len : Nat) : Except Int tosc_tinyosc :=
  let i := commaIdx mem len
  if i = len then Except.error (-1)
  else
    let i2 := fmtNullIdx mem len
    if i2 = len then Except.error (-2)
    else Except.ok { format := i + 1, marker := align4 (i2 + 4), len := len }

/-- Model of `tosc_getNextInt32`: unchecked big-endian load at the marker,
then `marker += 4`. -/
def tosc_getNextInt32 (mem : Nat → Nat) (o : tosc_tinyosc) : Int × tosc_tinyosc :=
  (toInt32 (readU32BE mem o.marker), { o with marker := o.marker + 4 })

/-- Model of `tosc_getNextFloat`: unchecked big-endian load of the IEEE-754
bit pattern at the marker, then `marker += 4`. -/
def tosc_getNextFloat (mem : Nat → Nat) (o : tosc_tinyosc) : Nat × tosc_tinyosc :=
  (readU32BE mem o.marker, { o with marker := o.marker + 4 })

/-- Model of `tosc_getNextString`: measure the null-terminated run at the
marker; fail (returning `none`, state unchanged) when `marker + strlen`
reaches `len`; otherwise return the run and advance the marker by
`(strlen + 4) & ~0x3`. -/
def tosc_getNextString (mem : Nat → Nat) (o : tosc_tinyosc) :
    Option (List Nat) × tosc_tinyosc :=
  let i := strlenAt mem o.len o.marker
  if o.len ≤ o.marker + i then (none, o)
  else (some (readBytes mem o.marker i), { o with marker := o.marker + align4 (i + 4) })

/-- Model of `tosc_getNextBlob`.  The out-parameters `(const char **buffer,
int *len)` become the returned pair `Option Nat × Int`: the data offset
(`none` models the `NULL` assignment) and the signed blob length.  The
length prefix is read through the C cast `int i = (int) ntohl(...)`, so a
prefix at or above `2^31` becomes negative.  The marker update `o->marker +=
(i + 7) & ~0x3` uses floor division (`Int.fdiv`), which on two's complement
equals the C bitwise clear of the two low bits; the resulting pointer is
clamped at offset 0 by `Int.toNat` (reachable only through negative
prefixes that move the pointer below the buffer start). -/
def tosc_getNextBlob (mem : Nat → Nat) (o : tosc_tinyosc) :
    (Option Nat × Int) × tosc_tinyosc :=
  let i : Int := toInt32 (readU32BE mem o.marker)
  if (o.marker : Int) + 4 + i ≤ (o.len : Int) then
    ((some (o.marker + 4), i),
      { o with marker := ((o.marker : Int) + 4 * ((i + 7).fdiv 4)).toNat })
  else ((none, 0), o)

/-- Typed argument consumed from the variadic list of `tosc_write`: `i`
carries a C `int`, `f` an IEEE-754 bit pattern, `s` the bytes of a
null-terminated string (terminator excluded), `b` the blob data (the C pair
`(length, pointer)` with `length = data.length`). -/
inductive Arg where
  | i (k : Int)
  | f (bits : Nat)
  | s (str : List Nat)
  | b (data : List Nat)
  deriving DecidableEq

/-- Pointwise store of one byte. -/
def upd (m : Nat → Nat) (p v : Nat) : Nat → Nat :=
  fun j => if j = p then v else m j

/-- Store of a list of bytes at consecutive offsets starting at `p`. -/
def writeBytes (m : Nat → Nat) (p : Nat) : List Nat → (Nat → Nat)
  | [] => m
  | v :: vs => writeBytes (upd m p v) (p + 1) vs

/-- Bytes of `htonl(n)` for `n` reduced mod `2^32`. -/
def u32bytes (n : Nat) : List Nat :=
  [n % 4294967296 / 16777216, n % 16777216 / 65536, n % 65536 / 256, n % 256]

/-- Model of `strcpy(buffer + p, s)`: the bytes of `s` and the terminating
null byte. -/
def strcpyAt (m : Nat → Nat) (p : Nat) (s : List Nat) : Nat → Nat :=
  writeBytes m p (s ++ [0])

/-- Model of the argument loop of `tosc_write` (the `switch` over the format
characters), threading the buffer contents and the write offset `i`. -/
def writeArgs (len : Nat) :
    List Nat → List Arg → (Nat → Nat) → Nat → (Nat → Nat) × Except Int Nat
  | [], _, m, i => (m, Except.ok i)
  | c :: fs, args, m, i =>
    if c = 98 then
      match args with
      | Arg.b data :: rest =>
        let n := data.length
        if len < i + 4 + n then (m, Except.error (-3))
        else
          writeArgs len fs rest
            (writeBytes (writeBytes m i (u32bytes n)) (i + 4) data)
            (align4 (i + 4 + 3 + n))
      | _ => (m, Except.error (-5))
    else if c = 102 then
      match args with
      | Arg.f bits :: rest =>
        if len < i + 4 then (m, Except.error (-3))
        else writeArgs len fs rest (writeBytes m i (u32bytes bits)) (i + 4)
      | _ => (m, Except.error (-5))
    else if c = 105 then
      match args with
      | Arg.i k :: rest =>
        if len < i + 4 then (m, Except.error (-3))
        else
          writeArgs len fs rest
            (writeBytes m i (u32bytes (k % 4294967296).toNat)) (i + 4)
      | _ => (m, Except.error (-5))
    else if c = 115 then
      match args with
      | Arg.s str :: rest =>
        if len ≤ i + str.length then (m, Except.error (-3))
        else writeArgs len fs rest (strcpyAt m i str) (align4 (i + 4 + str.length))
      | _ => (m, Except.error (-5))
    else if c = 84 ∨ c = 70 ∨ c = 78 ∨ c = 73 then writeArgs len fs args m i
    else (m, Except.error (-4))

/-- Model of `tosc_write`: zero-fill, copy the address, write the `','`
delimiter at the next multiple of 4, copy the format string, align, then run
the argument loop.  The result is the final buffer contents together with
the returned byte count (or negative error code). -/
def tosc_write (len : Nat) (address format : List Nat) (args : List Arg) :
    (Nat → Nat) × Except Int Nat :=
  let m : Nat → Nat := fun _ => 0
  let aL := address.length
  if len ≤ aL then (m, Except.error (-1))
  else
    let m1 := strcpyAt m 0 address
    let a := align4 (aL + 4)
    let m2 := upd m1 a 44
    let fL := format.length
    if len ≤ a + 1 + fL then (m2, Except.error (-2))
    else
      let m3 := strcpyAt m2 (a + 1) format
      writeArgs len format args m3 (align4 (a + 1 + 4 + fL))

/-- String recovered from offset `p`: the bytes strictly before the first
null byte at or after `p` (bounded by `len` as in `strlenAt`).  Used to
express what the borrowed `o->address` / `o->format` pointers denote. -/
def readCStr (mem : Nat → Nat) (len p : Nat) : List Nat :=
  readBytes mem p (strlenAt mem len p)

/-- Application of the argument iterator in format order (the loop of
`tosc_printOscBuffer`): one extraction per format character, collecting the
recovered values; fails when a string or blob extraction reports failure or
an unknown tag is met. -/
def extractArgs (mem : Nat → Nat) :
    List Nat → tosc_tinyosc → Option (List Arg × tosc_tinyosc)
  | [], o => some ([], o)
  | c :: fs, o =>
    if c = 98 then
      match tosc_getNextBlob mem o with
      | ((some off, n), o__1) =>
        match extractArgs mem fs o__1 with
        | some (vs, oF) => some (Arg.b (readBytes mem off n.toNat) :: vs, oF)
        | none => none
      | ((none, _), _) => none
    else if c = 102 then
      match tosc_getNextFloat mem o with
      | (bits, o__1) =>
        match extractArgs mem fs o__1 with
        | some (vs, oF) => some (Arg.f bits :: vs, oF)
        | none => none
    else if c = 105 then
      match tosc_getNextInt32 mem o with
      | (k, o__1) =>
        match extractArgs mem fs o__1 with
        | some (vs, oF) => some (Arg.i k :: vs, oF)
        | none => none
    else if c = 115 then
      match tosc_getNextString mem o with
      | (some s, o__1) =>
        match extractArgs mem fs o__1 with
        | some (vs, oF) => some (Arg.s s :: vs, oF)
        | none => none
      | (none, _) => none
    else if c = 84 ∨ c = 70 ∨ c = 78 ∨ c = 73 then extractArgs mem fs o
    else none

/-- Validity of an address for encoding: no null byte (the address is a
C string), no comma byte (the first comma in the buffer must be the format
delimiter), byte-valued. -/
def validAddress (address : List Nat) : Bool :=
  address.all fun b => decide (b ≠ 0 ∧ b ≠ 44 ∧ b < 256)

/-- Joint validity of a format string and its argument list: every tag is
one of `i f s b T F N I`, the arguments match the tags in order and are
exhausted, `i` arguments are in `int32` range, `f` bit patterns are 32-bit,
string arguments are null-free byte values, blob data is byte-valued. -/
def validArgs : List Nat → List Arg → Bool
  | [], args => args.isEmpty
  | c :: fs, args =>
    if c = 98 then
      match args with
      | Arg.b data :: rest => data.all (fun b => decide (b < 256)) && validArgs fs rest
      | _ => false
    else if c = 102 then
      match args with
      | Arg.f bits :: rest => decide (bits < 4294967296) && validArgs fs rest
      | _ => false
    else if c = 105 then
      match args with
      | Arg.i k :: rest =>
        decide (-2147483648 ≤ k ∧ k < 2147483648) && validArgs fs rest
      | _ => false
    else if c = 115 then
      match args with
      | Arg.s str :: rest =>
        str.all (fun b => decide (0 < b ∧ b < 256)) && validArgs fs rest
      | _ => false
    else if c = 84 ∨ c = 70 ∨ c = 78 ∨ c = 73 then validArgs fs args
    else false

/-- Buffer built from a finite list of byte values (zero beyond the list). -/
def byteList (l : List Nat) : Nat → Nat :=
  fun j => l.getD j 0

/-! Basic facts about the scanning loop, alignment, and byte stores. -/

theorem strscan_ge (mem : Nat → Nat) (t : Nat) :
    ∀ f i, i ≤ strscan mem t f i := by
  intro f
  induction f with
  | zero => intro i; exact Nat.le_refl i
  | succ f ih =>
    intro i
    simp only [strscan]
    split
    · exact Nat.le_refl i
    · exact Nat.le_trans (Nat.le_succ i) (ih (i + 1))

theorem strscan_le (mem : Nat → Nat) (t : Nat) :
    ∀ f i, strscan mem t f i ≤ i + f := by
  intro f
  induction f with
  | zero => intro i; exact Nat.le_refl i
  | succ f ih =>
    intro i
    simp only [strscan]
    split
    · omega
    · exact Nat.le_trans (ih (i + 1)) (by omega)

theorem strscan_found (mem : Nat → Nat) (t : Nat) :
    ∀ f i, strscan mem t f i < i + f → mem (strscan mem t f i) = t := by
  intro f
  induction f with
  | zero => intro i h; simp only [strscan] at h; omega
  | succ f ih =>
    intro i
    simp only [strscan]
    split
    · intro _; assumption
    · intro h; exact ih (i + 1) (by omega)

theorem strscan_not_below (mem : Nat → Nat) (t : Nat) :
    ∀ f i j, i ≤ j → j < strscan mem t f i → mem j ≠ t := by
  intro f
  induction f with
  | zero => intro i j h1 h2; simp only [strscan] at h2; omega
  | succ f ih =>
    intro i j h1 h2
    revert h2
    simp only [strscan]
    split
    · intro h2; omega
    · intro h2
      rcases Nat.eq_or_lt_of_le h1 with rfl | h1
      · assumption
      · exact ih (i + 1) j h1 h2

theorem strscan_le_of_mem (mem : Nat → Nat) (t : Nat) :
    ∀ f i q, i ≤ q → mem q = t → strscan mem t f i ≤ q := by
  intro f
  induction f with
  | zero => intro i q h _; exact h
  | succ f ih =>
    intro i q h hq
    simp only [strscan]
    split
    · exact h
    · rcases Nat.eq_or_lt_of_le h with rfl | h
      · exact absurd hq (by assumption)
      · exact ih (i + 1) q h hq

theorem strscan_congr (mem mem' : Nat → Nat) (t : Nat) :
    ∀ f i, (∀ j, i ≤ j → j < i + f → mem j = mem' j) →
      strscan mem t f i = strscan mem' t f i := by
  intro f
  induction f with
  | zero => intro i _; rfl
  | succ f ih =>
    intro i h
    simp only [strscan]
    rw [h i (Nat.le_refl i) (by omega)]
    split
    · rfl
    · exact ih (i + 1) fun j h1 h2 => h j (by omega) (by omega)

theorem align4_le (n : Nat) : align4 n ≤ n := by unfold align4; omega

theorem align4_mod (n : Nat) : align4 n % 4 = 0 := by unfold align4; omega

theorem lt_align4_add_four (n : Nat) : n < align4 (n + 4) := by unfold align4; omega

theorem align4_add_left (i n : Nat) (h : i % 4 = 0) :
    align4 (i + n) = i + align4 n := by unfold align4; omega

theorem writeBytes_lt (l : List Nat) :
    ∀ m p j, j < p → writeBytes m p l j = m j := by
  induction l with
  | nil => intro m p j _; rfl
  | cons v vs ih =>
    intro m p j h
    simp only [writeBytes]
    rw [ih _ (p + 1) j (by omega)]
    unfold upd
    rw [if_neg (by omega)]

theorem writeBytes_ge (l : List Nat) :
    ∀ m p j, p + l.length ≤ j → writeBytes m p l j = m j := by
  induction l with
  | nil => intro m p j _; rfl
  | cons v vs ih =>
    intro m p j h
    simp only [writeBytes]
    rw [ih _ (p + 1) j (by simp at h ⊢; omega)]
    unfold upd
    rw [if_neg (by simp at h; omega)]

theorem writeBytes_at (l : List Nat) :
    ∀ m p k, k < l.length → writeBytes m p l (p + k) = l.getD k 0 := by
  induction l with
  | nil => intro m p k h; simp at h
  | cons v vs ih =>
    intro m p k hk
    simp only [writeBytes]
    cases k with
    | zero =>
      rw [writeBytes_lt vs _ (p + 1) (p + 0) (by omega)]
      unfold upd
      simp
    | succ k' =>
      have h2 := ih (upd m p v) (p + 1) k' (by simp at hk; omega)
      rw [show p + (k' + 1) = p + 1 + k' by omega, h2]
      simp

theorem readBytes_eq (mem : Nat → Nat) :
    ∀ n p l, l.length = n → (∀ k, k < n → mem (p + k) = l.getD k 0) →
      readBytes mem p n = l := by
  intro n
  induction n with
  | zero =>
    intro p l hl _
    cases l
    · rfl
    · simp at hl
  | succ n ih =>
    intro p l hl hk
    cases l with
    | nil => simp at hl
    | cons x xs =>
      simp only [readBytes]
      have h0 := hk 0 (by omega)
      simp at h0
      rw [h0]
      congr 1
      apply ih (p + 1) xs (by simp at hl; omega)
      intro k hkk
      have := hk (k + 1) (by omega)
      rw [show p + (k + 1) = p + 1 + k by omega] at this
      simpa using this

theorem readBytes_congr (mem mem' : Nat → Nat) :
    ∀ n p, (∀ j, p ≤ j → j < p + n → mem j = mem' j) →
      readBytes mem p n = readBytes mem' p n := by
  intro n
  induction n with
  | zero => intro p _; rfl
  | succ n ih =>
    intro p h
    simp only [readBytes]
    rw [h p (Nat.le_refl p) (by omega)]
    congr 1
    exact ih (p + 1) fun j h1 h2 => h j (by omega) (by omega)

theorem toInt32_of_lt (n : Nat) (h : n < 2147483648) : toInt32 n = (n : Int) := by
  unfold toInt32
  rw [Nat.mod_eq_of_lt (by omega), if_pos h]

theorem toInt32_emod (k : Int) (h1 : -2147483648 ≤ k) (h2 : k < 2147483648) :
    toInt32 (k % 4294967296).toNat = k := by
  unfold toInt32
  split <;> omega

theorem fdiv4_eq (x : Int) : x.fdiv 4 = x / 4 :=
  Int.fdiv_eq_ediv x (by norm_num)

theorem getNextString_eq_none (mem : Nat → Nat) (o : tosc_tinyosc)
    (h : o.len ≤ o.marker + strlenAt mem o.len o.marker) :
    tosc_getNextString mem o = (none, o) := by
  simp only [tosc_getNextString]
  rw [if_pos h]

theorem getNextString_eq_some (mem : Nat → Nat) (o : tosc_tinyosc)
    (h : o.marker + strlenAt mem o.len o.marker < o.len) :
    tosc_getNextString mem o =
      (some (readBytes mem o.marker (strlenAt mem o.len o.marker)),
        { o with marker := o.marker + align4 (strlenAt mem o.len o.marker + 4) }) := by
  simp only [tosc_getNextString]
  rw [if_neg (by omega)]

theorem getNextBlob_eq_some (mem : Nat → Nat) (o : tosc_tinyosc)
    (h : (o.marker : Int) + 4 + toInt32 (readU32BE mem o.marker) ≤ (o.len : Int)) :
    tosc_getNextBlob mem o =
      ((some (o.marker + 4), toInt32 (readU32BE mem o.marker)),
        { o with marker := ((o.marker : Int) +
            4 * ((toInt32 (readU32BE mem o.marker) + 7) / 4)).toNat }) := by
  simp only [tosc_getNextBlob]
  rw [if_pos h, fdiv4_eq]

theorem getNextBlob_eq_none (mem : Nat → Nat) (o : tosc_tinyosc)
    (h : (o.len : Int) < (o.marker : Int) + 4 + toInt32 (readU32BE mem o.marker)) :
    tosc_getNextBlob mem o = ((none, 0), o) := by
  simp only [tosc_getNextBlob]
  rw [if_neg (by omega)]

/-! Characterisation of the envelope parse `tosc_read`. -/

theorem commaIdx_le (mem : Nat → Nat) (len : Nat) : commaIdx mem len ≤ len := by
  have := strscan_le mem 44 len 0
  unfold commaIdx
  omega

theorem commaIdx_lt_iff (mem : Nat → Nat) (len : Nat) :
    commaIdx mem len < len ↔ ∃ c, c < len ∧ mem c = 44 := by
  constructor
  · intro h
    exact ⟨commaIdx mem len, h, strscan_found mem 44 len 0 (by unfold commaIdx at h; omega)⟩
  · rintro ⟨c, hc, hm⟩
    have := strscan_le_of_mem mem 44 len 0 c (Nat.zero_le c) hm
    unfold commaIdx
    omega

theorem commaIdx_eq_len_iff (mem : Nat → Nat) (len : Nat) :
    commaIdx mem len = len ↔ ∀ j, j < len → mem j ≠ 44 := by
  constructor
  · intro h j hj
    refine strscan_not_below mem 44 len 0 j (Nat.zero_le j) ?_
    unfold commaIdx at h
    omega
  · intro h
    by_contra hne
    have hlt : commaIdx mem len < len := lt_of_le_of_ne (commaIdx_le mem len) hne
    obtain ⟨c, hc, hm⟩ := (commaIdx_lt_iff mem len).1 hlt
    exact h c hc hm

theorem fmtNullIdx_ge (mem : Nat → Nat) (len : Nat) :
    commaIdx mem len ≤ fmtNullIdx mem len :=
  strscan_ge mem 0 (len - commaIdx mem len) (commaIdx mem len)

theorem fmtNullIdx_le (mem : Nat → Nat) (len : Nat) : fmtNullIdx mem len ≤ len := by
  have h1 := strscan_le mem 0 (len - commaIdx mem len) (commaIdx mem len)
  have h2 := commaIdx_le mem len
  unfold fmtNullIdx
  omega

theorem fmtNullIdx_lt_iff (mem : Nat → Nat) (len : Nat) :
    fmtNullIdx mem len < len ↔
      ∃ t, commaIdx mem len ≤ t ∧ t < len ∧ mem t = 0 := by
  have hc := commaIdx_le mem len
  constructor
  · intro h
    refine ⟨fmtNullIdx mem len, fmtNullIdx_ge mem len, h, ?_⟩
    refine strscan_found mem 0 (len - commaIdx mem len) (commaIdx mem len) ?_
    unfold fmtNullIdx at h
    omega
  · rintro ⟨t, h1, h2, h3⟩
    have := strscan_le_of_mem mem 0 (len - commaIdx mem len) (commaIdx mem len) t h1 h3
    unfold fmtNullIdx
    omega

theorem fmtNullIdx_eq_len_iff (mem : Nat → Nat) (len : Nat) :
    fmtNullIdx mem len = len ↔
      ∀ j, commaIdx mem len ≤ j → j < len → mem j ≠ 0 := by
  constructor
  · intro h j hj1 hj2
    refine strscan_not_below mem 0 (len - commaIdx mem len) (commaIdx mem len) j hj1 ?_
    unfold fmtNullIdx at h
    omega
  · intro h
    by_contra hne
    have hlt : fmtNullIdx mem len < len := lt_of_le_of_ne (fmtNullIdx_le mem len) hne
    obtain ⟨t, h1, h2, h3⟩ := (fmtNullIdx_lt_iff mem len).1 hlt
    exact h t h1 h2 h3

theorem tosc_read_cases (mem : Nat → Nat) (len : Nat) :
    (commaIdx mem len = len ∧ tosc_read mem len = Except.error (-1)) ∨
    (commaIdx mem len < len ∧ fmtNullIdx mem len = len ∧
      tosc_read mem len = Except.error (-2)) ∨
    (commaIdx mem len < len ∧ fmtNullIdx mem len < len ∧
      tosc_read mem len =
        Except.ok ⟨commaIdx mem len + 1, align4 (fmtNullIdx mem len + 4), len⟩) := by
  by_cases h1 : commaIdx mem len = len
  · left
    refine ⟨h1, ?_⟩
    unfold tosc_read
    simp [h1]
  · have h1' := lt_of_le_of_ne (commaIdx_le mem len) h1
    by_cases h2 : fmtNullIdx mem len = len
    · right; left
      refine ⟨h1', h2, ?_⟩
      unfold tosc_read
      simp [h1, h2]
    · have h2' := lt_of_le_of_ne (fmtNullIdx_le mem len) h2
      right; right
      refine ⟨h1', h2', ?_⟩
      unfold tosc_read
      simp [h1, h2]

/-- C4: `tosc_read` fails with `-1` (MissingFormatDelimiter) iff no comma
byte occurs among the first `len` bytes of the buffer; when a comma is
found, it fails with `-2` (UnterminatedFormatString) iff no null byte occurs
at or after the comma within the first `len` bytes; otherwise it succeeds. -/
theorem c4_read_error_conditions (mem : Nat → Nat) (len : Nat) :
    (tosc_read mem len = Except.error (-1) ↔ ∀ j, j < len → mem j ≠ 44) ∧
    ((∃ c, c < len ∧ mem c = 44) →
      (tosc_read mem len = Except.error (-2) ↔
        ∀ j, commaIdx mem len ≤ j → j < len → mem j ≠ 0)) ∧
    ((∃ c, c < len ∧ mem c = 44) →
      (∃ t, commaIdx mem len ≤ t ∧ t < len ∧ mem t = 0) →
      ∃ o, tosc_read mem len = Except.ok o) := by
  refine ⟨?_, ?_, ?_⟩
  · rw [← commaIdx_eq_len_iff]
    rcases tosc_read_cases mem len with ⟨h, hr⟩ | ⟨h, _, hr⟩ | ⟨h, _, hr⟩ <;> rw [hr]
    · simp [h]
    · constructor
      · intro hx; exact absurd hx (by simp)
      · omega
    · constructor
      · intro hx; exact absurd hx (by simp)
      · omega
  · intro hcomma
    have h1 := (commaIdx_lt_iff mem len).2 hcomma
    rw [← fmtNullIdx_eq_len_iff]
    rcases tosc_read_cases mem len with ⟨h, hr⟩ | ⟨_, h, hr⟩ | ⟨_, h, hr⟩ <;> rw [hr]
    · omega
    · simp [h]
    · constructor
      · intro hx; exact absurd hx (by simp)
      · omega
  · intro hcomma hnull
    have h1 := (commaIdx_lt_iff mem len).2 hcomma
    have h2 := (fmtNullIdx_lt_iff mem len).2 hnull
    rcases tosc_read_cases mem len with ⟨h, _⟩ | ⟨_, h, _⟩ | ⟨_, _, hr⟩
    · omega
    · omega
    · exact ⟨_, hr⟩

/-- Closed instance of `c4_read_error_conditions`: a buffer with an address
but no comma gives `-1`; a buffer with a comma but no terminator gives `-2`;
a buffer with both parses successfully. -/
theorem c4_read_error_conditions_witness :
    tosc_read (byteList [47, 97, 0, 0]) 4 = Except.error (-1) ∧
    tosc_read (byteList [47, 97, 0, 44, 102]) 5 = Except.error (-2) ∧
    (∃ o, tosc_read (byteList [47, 97, 0, 44, 102, 0]) 6 = Except.ok o) := by
  refine ⟨?_, ?_, ?_⟩
  · exact (c4_read_error_conditions (byteList [47, 97, 0, 0]) 4).1.2 (by decide)
  · exact ((c4_read_error_conditions (byteList [47, 97, 0, 44, 102]) 5).2.1
      ⟨3, by decide, by decide⟩).2 (by decide)
  · exact (c4_read_error_conditions (byteList [47, 97, 0, 44, 102, 0]) 6).2.2
      ⟨3, by decide, by decide⟩ ⟨5, by decide, by decide, by decide⟩

/-- C5: after a successful read the marker is `(t + 4) & ~0x3`, where `t` is
the offset of the format string's null terminator; this offset is a multiple
of 4 and strictly greater than `t`, so at least one padding byte is always
consumed. -/
theorem c5_marker_alignment (mem : Nat → Nat) (len : Nat) (o : tosc_tinyosc)
    (h : tosc_read mem len = Except.ok o) :
    o.marker = align4 (fmtNullIdx mem len + 4) ∧ o.marker % 4 = 0 ∧
      fmtNullIdx mem len < o.marker := by
  rcases tosc_read_cases mem len with ⟨_, hr⟩ | ⟨_, _, hr⟩ | ⟨_, _, hr⟩
  · rw [hr] at h; exact absurd h (by simp)
  · rw [hr] at h; exact absurd h (by simp)
  · rw [hr] at h
    have := (Except.ok.inj h).symm
    subst this
    exact ⟨rfl, align4_mod _, lt_align4_add_four _⟩

/-- Closed instance of `c5_marker_alignment` on a concrete buffer
(terminator at offset 4, marker at offset 8). -/
theorem c5_marker_alignment_witness :
    (⟨4, 8, 5⟩ : tosc_tinyosc).marker =
        align4 (fmtNullIdx (byteList [47, 97, 0, 44, 0]) 5 + 4) ∧
      (⟨4, 8, 5⟩ : tosc_tinyosc).marker % 4 = 0 ∧
      fmtNullIdx (byteList [47, 97, 0, 44, 0]) 5 < (⟨4, 8, 5⟩ : tosc_tinyosc).marker :=
  c5_marker_alignment (byteList [47, 97, 0, 44, 0]) 5 ⟨4, 8, 5⟩ (by decide)

/-- C10: `tosc_read` succeeds on every buffer containing a comma below `len`
followed (at or after it, below `len`) by a null byte — regardless of
whether the address part is null terminated before the comma and regardless
of the first byte of the buffer. -/
theorem c10_read_permissive (mem : Nat → Nat) (len : Nat)
    (h : ∃ c, c < len ∧ mem c = 44 ∧ ∃ t, c ≤ t ∧ t < len ∧ mem t = 0) :
    ∃ o, tosc_read mem len = Except.ok o := by
  obtain ⟨c, hc, hcm, t, ht1, ht2, htm⟩ := h
  have h1 : commaIdx mem len < len := (commaIdx_lt_iff mem len).2 ⟨c, hc, hcm⟩
  have hcle : commaIdx mem len ≤ c := strscan_le_of_mem mem 44 len 0 c (Nat.zero_le c) hcm
  have h2 : fmtNullIdx mem len < len :=
    (fmtNullIdx_lt_iff mem len).2 ⟨t, le_trans hcle ht1, ht2, htm⟩
  rcases tosc_read_cases mem len with ⟨hA, _⟩ | ⟨_, hB, _⟩ | ⟨_, _, hr⟩
  · omega
  · omega
  · exact ⟨_, hr⟩

/-- Closed instance of `c10_read_permissive`: the buffer starts with `'X'`
(not `'/'`) and has no null byte before the comma, yet `tosc_read`
succeeds. -/
theorem c10_read_permissive_witness :
    ∃ o, tosc_read (byteList [88, 44, 0]) 3 = Except.ok o :=
  c10_read_permissive (byteList [88, 44, 0]) 3
    ⟨1, by decide, by decide, 2, by decide, by decide, by decide⟩

/-- C7: `tosc_getNextString` measures the null-terminated run at the cursor;
when the terminator offset would reach or exceed the buffer length it
returns `none` and leaves the state unchanged, otherwise it returns the run
and advances the cursor by `(runLength + 4) & ~0x3` — for a 4-aligned cursor
this is the next multiple of 4 strictly after the terminator. -/
theorem c7_string_semantics (mem : Nat → Nat) (o : tosc_tinyosc) :
    (o.len ≤ o.marker + strlenAt mem o.len o.marker →
      tosc_getNextString mem o = (none, o)) ∧
    (o.marker + strlenAt mem o.len o.marker < o.len →
      tosc_getNextString mem o =
        (some (readBytes mem o.marker (strlenAt mem o.len o.marker)),
          { o with marker := o.marker + align4 (strlenAt mem o.len o.marker + 4) }) ∧
      (o.marker % 4 = 0 →
        (o.marker + align4 (strlenAt mem o.len o.marker + 4)) % 4 = 0 ∧
        o.marker + strlenAt mem o.len o.marker <
          o.marker + align4 (strlenAt mem o.len o.marker + 4) ∧
        o.marker + align4 (strlenAt mem o.len o.marker + 4) ≤
          o.marker + strlenAt mem o.len o.marker + 4)) := by
  constructor
  · intro h
    unfold tosc_getNextString
    rw [if_pos h]
  · intro h
    constructor
    · unfold tosc_getNextString
      rw [if_neg (by omega)]
    · intro hal
      unfold align4
      omega

/-- Closed instance of `c7_string_semantics`: a successful extraction of
"hi" (cursor 4 → 8) and a failed one on a truncated buffer. -/
theorem c7_string_semantics_witness :
    tosc_getNextString (byteList [44, 0, 0, 0, 104, 105, 0, 0]) ⟨1, 4, 8⟩ =
      (some [104, 105], ⟨1, 8, 8⟩) ∧
    tosc_getNextString (byteList [44, 0, 0, 0, 104, 105]) ⟨1, 4, 6⟩ =
      (none, ⟨1, 4, 6⟩) := by
  constructor
  · exact (((c7_string_semantics (byteList [44, 0, 0, 0, 104, 105, 0, 0])
      ⟨1, 4, 8⟩).2 (by decide)).1).trans (by decide)
  · exact (c7_string_semantics (byteList [44, 0, 0, 0, 104, 105]) ⟨1, 4, 6⟩).1 (by decide)

/-- C2 as stated is false: `tosc_getNextInt32` performs no bounds check, so
when the cursor is closer than 4 bytes to the end its result depends on
bytes outside `[0, len)`.  The two buffers below agree on every byte of
`[0, 6)` and parse to the same message, yet `nextInt32` returns different
values, i.e. it reads past the end. -/
theorem c2_counterexample :
    (∀ j, j < 6 → byteList [44, 0, 0, 0, 0, 0] j = byteList [44, 0, 0, 0, 0, 0, 1] j) ∧
    tosc_read (byteList [44, 0, 0, 0, 0, 0]) 6 = Except.ok ⟨1, 4, 6⟩ ∧
    tosc_read (byteList [44, 0, 0, 0, 0, 0, 1]) 6 = Except.ok ⟨1, 4, 6⟩ ∧
    (tosc_getNextInt32 (byteList [44, 0, 0, 0, 0, 0]) ⟨1, 4, 6⟩).1 ≠
      (tosc_getNextInt32 (byteList [44, 0, 0, 0, 0, 0, 1]) ⟨1, 4, 6⟩).1 := by
  refine ⟨by decide, by decide, by decide, by decide⟩

/-- C2 amended: bounds safety holds for the variable-length string
extractor — the result and cursor effect of `tosc_getNextString` depend only
on the bytes inside `[0, o.len)` (truncated reads return `none`), while the
fixed 4-byte extractors perform no bounds check at all. -/
theorem c2_amended_string_bounds (mem mem' : Nat → Nat) (o : tosc_tinyosc)
    (h : ∀ j, j < o.len → mem j = mem' j) :
    tosc_getNextString mem o = tosc_getNextString mem' o := by
  have hs : strlenAt mem o.len o.marker = strlenAt mem' o.len o.marker := by
    unfold strlenAt
    rw [strscan_congr mem mem' 0 (o.len - o.marker) o.marker
      fun j h1 h2 => h j (by omega)]
  by_cases hc : o.len ≤ o.marker + strlenAt mem o.len o.marker
  · rw [getNextString_eq_none mem o hc, getNextString_eq_none mem' o (hs ▸ hc)]
  · have hc' : o.marker + strlenAt mem' o.len o.marker < o.len := by rw [← hs]; omega
    rw [getNextString_eq_some mem o (by omega), getNextString_eq_some mem' o hc', ← hs,
      readBytes_congr mem mem' (strlenAt mem o.len o.marker) o.marker
        fun j h1 h2 => h j (by omega)]

/-- Closed instance of `c2_amended_string_bounds`: two buffers agreeing
below `len = 6` give identical `nextString` results. -/
theorem c2_amended_string_bounds_witness :
    tosc_getNextString (byteList [44, 0, 0, 0, 104, 0]) ⟨1, 4, 6⟩ =
      tosc_getNextString (byteList [44, 0, 0, 0, 104, 0, 99]) ⟨1, 4, 6⟩ :=
  c2_amended_string_bounds (byteList [44, 0, 0, 0, 104, 0])
    (byteList [44, 0, 0, 0, 104, 0, 99]) ⟨1, 4, 6⟩ (by decide)

/-- C3 as stated is false at two points.  A blob length prefix of
`0xFFFFFFF8` is cast by the code to the signed value `-8`, passes the bounds
check, and moves the cursor backward (`4 → 0`).  A successful string
extraction from a buffer whose length is not a multiple of 4 can leave the
cursor past the buffer end (`4 → 12` with `len = 10`). -/
theorem c3_counterexample :
    tosc_read (byteList [44, 0, 0, 0, 255, 255, 255, 248]) 8 = Except.ok ⟨1, 4, 8⟩ ∧
    (tosc_getNextBlob (byteList [44, 0, 0, 0, 255, 255, 255, 248]) ⟨1, 4, 8⟩).2.marker <
      (⟨1, 4, 8⟩ : tosc_tinyosc).marker ∧
    tosc_read (byteList [44, 0, 0, 0, 97, 98, 99, 100, 101, 0]) 10 =
      Except.ok ⟨1, 4, 10⟩ ∧
    (tosc_getNextString (byteList [44, 0, 0, 0, 97, 98, 99, 100, 101, 0])
      ⟨1, 4, 10⟩).1.isSome = true ∧
    (⟨1, 4, 10⟩ : tosc_tinyosc).len <
      (tosc_getNextString (byteList [44, 0, 0, 0, 97, 98, 99, 100, 101, 0])
        ⟨1, 4, 10⟩).2.marker := by
  refine ⟨by decide, by decide, by decide, by decide, by decide⟩

/-- C3 amended: the fixed 4-byte extractors always advance the cursor by 4
with no overrun check; a string or blob extraction that fails leaves the
state unchanged; a successful string extraction never retreats and leaves
the cursor at most `len + 3`; and the blob extractor never retreats and
obeys the same success bound provided the signed reading of its length
prefix is nonnegative. -/
theorem c3_amended_cursor_invariants (mem : Nat → Nat) (o : tosc_tinyosc) :
    (tosc_getNextInt32 mem o).2.marker = o.marker + 4 ∧
    (tosc_getNextFloat mem o).2.marker = o.marker + 4 ∧
    o.marker ≤ (tosc_getNextString mem o).2.marker ∧
    ((tosc_getNextString mem o).1 = none → (tosc_getNextString mem o).2 = o) ∧
    ((tosc_getNextString mem o).1.isSome = true →
      (tosc_getNextString mem o).2.marker ≤ o.len + 3) ∧
    ((tosc_getNextBlob mem o).1.1 = none → (tosc_getNextBlob mem o).2 = o) ∧
    (0 ≤ toInt32 (readU32BE mem o.marker) →
      o.marker ≤ (tosc_getNextBlob mem o).2.marker ∧
      ((tosc_getNextBlob mem o).1.1.isSome = true →
        (tosc_getNextBlob mem o).2.marker ≤ o.len + 3)) := by
  refine ⟨rfl, rfl, ?_, ?_, ?_, ?_, ?_⟩
  · by_cases hc : o.len ≤ o.marker + strlenAt mem o.len o.marker
    · rw [getNextString_eq_none mem o hc]
    · rw [getNextString_eq_some mem o (by omega)]
      exact Nat.le_add_right _ _
  · intro h1
    by_cases hc : o.len ≤ o.marker + strlenAt mem o.len o.marker
    · rw [getNextString_eq_none mem o hc]
    · rw [getNextString_eq_some mem o (by omega)] at h1
      exact absurd h1 (by simp)
  · intro h1
    by_cases hc : o.len ≤ o.marker + strlenAt mem o.len o.marker
    · rw [getNextString_eq_none mem o hc] at h1
      simp at h1
    · rw [getNextString_eq_some mem o (by omega)]
      have := align4_le (strlenAt mem o.len o.marker + 4)
      show o.marker + align4 (strlenAt mem o.len o.marker + 4) ≤ o.len + 3
      omega
  · intro h1
    by_cases hc : (o.marker : Int) + 4 + toInt32 (readU32BE mem o.marker) ≤ (o.len : Int)
    · rw [getNextBlob_eq_some mem o hc] at h1
      simp at h1
    · rw [getNextBlob_eq_none mem o (by omega)]
  · intro hn
    by_cases hc : (o.marker : Int) + 4 + toInt32 (readU32BE mem o.marker) ≤ (o.len : Int)
    · rw [getNextBlob_eq_some mem o hc]
      constructor
      · show o.marker ≤ ((o.marker : Int) +
          4 * ((toInt32 (readU32BE mem o.marker) + 7) / 4)).toNat
        omega
      · intro _
        show ((o.marker : Int) +
          4 * ((toInt32 (readU32BE mem o.marker) + 7) / 4)).toNat ≤ o.len + 3
        omega
    · rw [getNextBlob_eq_none mem o (by omega)]
      exact ⟨Nat.le_refl _, by intro hx; simp at hx⟩

/-- Closed instance of `c3_amended_cursor_invariants`: the success bound for
a concrete string extraction. -/
theorem c3_amended_cursor_invariants_witness :
    (tosc_getNextString (byteList [44, 0, 0, 0, 104, 105, 0, 0]) ⟨1, 4, 8⟩).2.marker ≤
      8 + 3 :=
  (c3_amended_cursor_invariants (byteList [44, 0, 0, 0, 104, 105, 0, 0])
    ⟨1, 4, 8⟩).2.2.2.2.1 (by decide)

/-- C6 failing input: the 8-byte message `2C 00 00 00 FF FF FF F8` parses
with the cursor at offset 4 and 0 bytes of argument data remaining; the blob
length prefix reads (unsigned) as `4294967288`, which exceeds the remaining
buffer, so per the claim `tosc_getNextBlob` must return `(none, 0)` and
leave the cursor unchanged — but the code casts the prefix to the signed
`int` `-8`, passes its bounds check, returns a non-null data offset with
length `-8`, and moves the cursor backward to 0. -/
theorem c6_blob_signed_length_bug :
    tosc_read (byteList [44, 0, 0, 0, 255, 255, 255, 248]) 8 = Except.ok ⟨1, 4, 8⟩ ∧
    readU32BE (byteList [44, 0, 0, 0, 255, 255, 255, 248]) 4 = 4294967288 ∧
    tosc_getNextBlob (byteList [44, 0, 0, 0, 255, 255, 255, 248]) ⟨1, 4, 8⟩ =
      ((some 8, -8), ⟨1, 0, 8⟩) := by
  refine ⟨by decide, by decide, by decide⟩

/-- C9: when the address fits but its padded length plus the comma
delimiter leaves no room for the format string and its null terminator,
`tosc_write` returns `-2` (FormatTooLong) and every byte after the comma
position keeps its zero fill — in particular no argument bytes are
written. -/
theorem c9_format_too_long (len : Nat) (address format : List Nat) (args : List Arg)
    (hA : address.length < len)
    (hNoRoom : len ≤ align4 (address.length + 4) + 1 + format.length) :
    (tosc_write len address format args).2 = Except.error (-2) ∧
    ∀ j, align4 (address.length + 4) < j →
      (tosc_write len address format args).1 j = 0 := by
  have hw : tosc_write len address format args =
      (upd (strcpyAt (fun _ => 0) 0 address) (align4 (address.length + 4)) 44,
        Except.error (-2)) := by
    simp only [tosc_write]
    rw [if_neg (by omega), if_pos hNoRoom]
  rw [hw]
  refine ⟨rfl, ?_⟩
  intro j hj
  have haL : address.length < align4 (address.length + 4) := lt_align4_add_four _
  show upd (strcpyAt (fun _ => 0) 0 address) (align4 (address.length + 4)) 44 j = 0
  unfold upd
  rw [if_neg (by omega)]
  unfold strcpyAt
  rw [writeBytes_ge _ _ _ _ (by simp; omega)]

/-- Closed instance of `c9_format_too_long`: address "/ab" (padded comma at
offset 4) with capacity 6 and format "f" leaves no room for the format's
terminator. -/
theorem c9_format_too_long_witness :
    (tosc_write 6 [47, 97, 98] [102] []).2 = Except.error (-2) ∧
    (tosc_write 6 [47, 97, 98] [102] []).1 5 = 0 := by
  have h := c9_format_too_long 6 [47, 97, 98] [102] [] (by decide) (by decide)
  exact ⟨h.1, h.2 5 (by decide)⟩

/-- C8: encoding address "/button1" with format "f" and the argument 0.5
(IEEE-754 bit pattern `0x3F000000`) returns 20 bytes: the 16 header bytes
`/button1` + four nulls + `,f` + two nulls, then big-endian `0x3F000000`;
decoding that buffer recovers the address, the format, and the bit pattern
of 0.5. -/
theorem c8_scenario_button1 :
    (tosc_write 32 [47, 98, 117, 116, 116, 111, 110, 49] [102] [Arg.f 1056964608]).2 =
      Except.ok 20 ∧
    readBytes (tosc_write 32 [47, 98, 117, 116, 116, 111, 110, 49] [102]
        [Arg.f 1056964608]).1 0 20 =
      [47, 98, 117, 116, 116, 111, 110, 49, 0, 0, 0, 0, 44, 102, 0, 0, 63, 0, 0, 0] ∧
    tosc_read (tosc_write 32 [47, 98, 117, 116, 116, 111, 110, 49] [102]
        [Arg.f 1056964608]).1 20 = Except.ok ⟨13, 16, 20⟩ ∧
    readCStr (tosc_write 32 [47, 98, 117, 116, 116, 111, 110, 49] [102]
        [Arg.f 1056964608]).1 20 0 = [47, 98, 117, 116, 116, 111, 110, 49] ∧
    readCStr (tosc_write 32 [47, 98, 117, 116, 116, 111, 110, 49] [102]
        [Arg.f 1056964608]).1 20 13 = [102] ∧
    (tosc_getNextFloat (tosc_write 32 [47, 98, 117, 116, 116, 111, 110, 49] [102]
        [Arg.f 1056964608]).1 ⟨13, 16, 20⟩).1 = 1056964608 := by
  refine ⟨by decide, by decide, by decide, by decide, by decide, by decide⟩

/-! Support for the round-trip theorem: pinpointing scans, byte-level facts
about the written buffer, and consequences of the validity predicates. -/

theorem strscan_eq_exact (mem : Nat → Nat) (t f i q : Nat) (h1 : i ≤ q)
    (h2 : q < i + f) (hq : mem q = t)
    (hbelow : ∀ j, i ≤ j → j < q → mem j ≠ t) : strscan mem t f i = q := by
  have hle := strscan_le_of_mem mem t f i q h1 hq
  have hge := strscan_ge mem t f i
  rcases Nat.lt_or_ge (strscan mem t f i) q with hlt | hge2
  · exact absurd (strscan_found mem t f i (by omega)) (hbelow _ hge hlt)
  · omega

theorem strlenAt_eq (mem : Nat → Nat) (total q sL : Nat)
    (hnz : ∀ k, k < sL → mem (q + k) ≠ 0) (h0 : mem (q + sL) = 0)
    (hlt : q + sL < total) : strlenAt mem total q = sL := by
  unfold strlenAt
  rw [strscan_eq_exact mem 0 (total - q) q (q + sL) (by omega) (by omega) h0 ?_]
  · omega
  · intro j hj1 hj2
    have h3 := hnz (j - q) (by omega)
    rwa [show q + (j - q) = j by omega] at h3

theorem readU32BE_congr (mem mem' : Nat → Nat) (p : Nat)
    (h : ∀ j, p ≤ j → j < p + 4 → mem j = mem' j) :
    readU32BE mem p = readU32BE mem' p := by
  unfold readU32BE
  rw [h p (Nat.le_refl p) (by omega), h (p + 1) (by omega) (by omega),
    h (p + 2) (by omega) (by omega), h (p + 3) (by omega) (by omega)]

theorem writeBytes_at' (l : List Nat) (m : Nat → Nat) (p q : Nat)
    (h1 : p ≤ q) (h2 : q < p + l.length) :
    writeBytes m p l q = l.getD (q - p) 0 := by
  have h3 := writeBytes_at l m p (q - p) (by omega)
  rwa [show p + (q - p) = q by omega] at h3

theorem readU32BE_u32bytes (m : Nat → Nat) (p n : Nat) :
    readU32BE (writeBytes m p (u32bytes n)) p = n % 4294967296 := by
  have h0 : writeBytes m p (u32bytes n) p = n % 4294967296 / 16777216 := by
    have := writeBytes_at' (u32bytes n) m p p (Nat.le_refl p) (by simp [u32bytes])
    simpa [u32bytes] using this
  have h1 : writeBytes m p (u32bytes n) (p + 1) = n % 16777216 / 65536 := by
    have := writeBytes_at' (u32bytes n) m p (p + 1) (by omega) (by simp [u32bytes])
    simpa [u32bytes] using this
  have h2 : writeBytes m p (u32bytes n) (p + 2) = n % 65536 / 256 := by
    have := writeBytes_at' (u32bytes n) m p (p + 2) (by omega) (by simp [u32bytes])
    simpa [u32bytes] using this
  have h3 : writeBytes m p (u32bytes n) (p + 3) = n % 256 := by
    have := writeBytes_at' (u32bytes n) m p (p + 3) (by omega) (by simp [u32bytes])
    simpa [u32bytes] using this
  unfold readU32BE
  rw [h0, h1, h2, h3]
  omega

theorem strcpyAt_lt (m : Nat → Nat) (p : Nat) (s : List Nat) (j : Nat)
    (h : j < p) : strcpyAt m p s j = m j :=
  writeBytes_lt _ _ _ _ h

theorem strcpyAt_ge (m : Nat → Nat) (p : Nat) (s : List Nat) (j : Nat)
    (h : p + s.length + 1 ≤ j) : strcpyAt m p s j = m j := by
  unfold strcpyAt
  rw [writeBytes_ge _ _ _ _ (by simp; omega)]

theorem strcpyAt_at (m : Nat → Nat) (p : Nat) (s : List Nat) (q : Nat)
    (h1 : p ≤ q) (h2 : q < p + s.length) :
    strcpyAt m p s q = s.getD (q - p) 0 := by
  unfold strcpyAt
  rw [writeBytes_at' _ _ _ _ h1 (by simp; omega)]
  exact List.getD_append _ _ _ _ (by omega)

theorem strcpyAt_null (m : Nat → Nat) (p : Nat) (s : List Nat) (q : Nat)
    (h : q = p + s.length) : strcpyAt m p s q = 0 := by
  unfold strcpyAt
  rw [writeBytes_at' _ _ _ _ (by omega) (by simp; omega)]
  rw [List.getD_append_right _ _ _ _ (by omega)]
  simp [h]

theorem all_getD (s : List Nat) (P : Nat → Bool) (h : s.all P = true) (k : Nat)
    (hk : k < s.length) : P (s.getD k 0) = true := by
  rw [List.all_eq_true] at h
  exact h _ (by rw [List.getD_eq_getElem _ _ hk]; exact List.getElem_mem hk)

theorem validAddress_byte (address : List Nat) (h : validAddress address = true)
    (k : Nat) (hk : k < address.length) :
    address.getD k 0 ≠ 0 ∧ address.getD k 0 ≠ 44 ∧ address.getD k 0 < 256 := by
  have := all_getD address _ h k hk
  simpa using this

theorem validArgs_chars : ∀ fmt args, validArgs fmt args = true →
    ∀ c ∈ fmt, c = 98 ∨ c = 102 ∨ c = 105 ∨ c = 115 ∨
      c = 84 ∨ c = 70 ∨ c = 78 ∨ c = 73 := by
  intro fmt
  induction fmt with
  | nil => intro args _ c hc; simp at hc
  | cons c0 fs ih =>
    intro args hv c hc
    rw [List.mem_cons] at hc
    unfold validArgs at hv
    by_cases h1 : c0 = 98
    · rw [if_pos h1] at hv
      rcases hc with rfl | hc
      · omega
      · cases args with
        | nil => simp at hv
        | cons a rest =>
          cases a with
          | i k => simp at hv
          | f bits => simp at hv
          | s str => simp at hv
          | b data =>
            simp only [Bool.and_eq_true] at hv
            exact ih rest hv.2 c hc
    · rw [if_neg h1] at hv
      by_cases h2 : c0 = 102
      · rw [if_pos h2] at hv
        rcases hc with rfl | hc
        · omega
        · cases args with
          | nil => simp at hv
          | cons a rest =>
            cases a with
            | i k => simp at hv
            | s str => simp at hv
            | b data => simp at hv
            | f bits =>
              simp only [Bool.and_eq_true] at hv
              exact ih rest hv.2 c hc
      · rw [if_neg h2] at hv
        by_cases h3 : c0 = 105
        · rw [if_pos h3] at hv
          rcases hc with rfl | hc
          · omega
          · cases args with
            | nil => simp at hv
            | cons a rest =>
              cases a with
              | f bits => simp at hv
              | s str => simp at hv
              | b data => simp at hv
              | i k =>
                simp only [Bool.and_eq_true] at hv
                exact ih rest hv.2 c hc
        · rw [if_neg h3] at hv
          by_cases h4 : c0 = 115
          · rw [if_pos h4] at hv
            rcases hc with rfl | hc
            · omega
            · cases args with
              | nil => simp at hv
              | cons a rest =>
                cases a with
                | f bits => simp at hv
                | i k => simp at hv
                | b data => simp at hv
                | s str =>
                  simp only [Bool.and_eq_true] at hv
                  exact ih rest hv.2 c hc
          · rw [if_neg h4] at hv
            by_cases h5 : c0 = 84 ∨ c0 = 70 ∨ c0 = 78 ∨ c0 = 73
            · rw [if_pos h5] at hv
              rcases hc with rfl | hc
              · omega
              · exact ih args hv c hc
            · rw [if_neg h5] at hv
              simp at hv

theorem tosc_write_ok_bounds (len : Nat) (address format : List Nat)
    (args : List Arg) (total : Nat)
    (hw : (tosc_write len address format args).2 = Except.ok total) :
    address.length < len ∧ align4 (address.length + 4) + 1 + format.length < len := by
  by_cases h1 : len ≤ address.length
  · simp only [tosc_write] at hw
    rw [if_pos h1] at hw
    simp at hw
  · by_cases h2 : len ≤ align4 (address.length + 4) + 1 + format.length
    · simp only [tosc_write] at hw
      rw [if_neg h1, if_pos h2] at hw
      simp at hw
    · omega

theorem tosc_write_ok_unfold (len : Nat) (address format : List Nat) (args : List Arg)
    (h1 : address.length < len)
    (h2 : align4 (address.length + 4) + 1 + format.length < len) :
    tosc_write len address format args =
      writeArgs len format args
        (strcpyAt (upd (strcpyAt (fun _ => 0) 0 address)
            (align4 (address.length + 4)) 44)
          (align4 (address.length + 4) + 1) format)
        (align4 (align4 (address.length + 4) + 1 + 4 + format.length)) := by
  simp only [tosc_write]
  rw [if_neg (by omega), if_neg (by omega)]

theorem mHdr_eval (address format : List Nat) (j : Nat) :
    strcpyAt (upd (strcpyAt (fun _ => 0) 0 address) (align4 (address.length + 4)) 44)
        (align4 (address.length + 4) + 1) format j =
      if j < address.length then address.getD j 0
      else if j = align4 (address.length + 4) then 44
      else if align4 (address.length + 4) + 1 ≤ j ∧
          j < align4 (address.length + 4) + 1 + format.length then
        format.getD (j - (align4 (address.length + 4) + 1)) 0
      else 0 := by
  have haL : address.length < align4 (address.length + 4) := lt_align4_add_four _
  by_cases h1 : j < address.length
  · rw [if_pos h1, strcpyAt_lt _ _ _ _ (by omega)]
    unfold upd
    rw [if_neg (by omega)]
    have h5 := strcpyAt_at (fun _ => 0) 0 address j (by omega) (by omega)
    simpa using h5
  · rw [if_neg h1]
    by_cases h2 : j = align4 (address.length + 4)
    · rw [if_pos h2, strcpyAt_lt _ _ _ _ (by omega)]
      unfold upd
      rw [if_pos h2]
    · rw [if_neg h2]
      by_cases h3 : align4 (address.length + 4) + 1 ≤ j ∧
          j < align4 (address.length + 4) + 1 + format.length
      · rw [if_pos h3]
        exact strcpyAt_at _ _ _ _ (by omega) (by omega)
      · rw [if_neg h3]
        push_neg at h3
        by_cases h4 : j < align4 (address.length + 4)
        · rw [strcpyAt_lt _ _ _ _ (by omega)]
          unfold upd
          rw [if_neg (by omega)]
          rcases Nat.eq_or_lt_of_le (Nat.le_of_not_lt h1) with heq | hlt
          · exact strcpyAt_null _ _ _ _ (by omega)
          · exact strcpyAt_ge _ _ _ _ (by omega)
        · have h5 : align4 (address.length + 4) + 1 + format.length ≤ j := by
            have := h3 (by omega)
            omega
          rcases Nat.eq_or_lt_of_le h5 with heq2 | hlt2
          · exact strcpyAt_null _ _ _ _ (by omega)
          · rw [strcpyAt_ge _ _ _ _ (by omega)]
            unfold upd
            rw [if_neg (by omega)]
            exact strcpyAt_ge _ _ _ _ (by omega)

theorem getNextInt32_written (mem : Nat → Nat) (F i total : Nat) (k : Int)
    (hk1 : -2147483648 ≤ k) (hk2 : k < 2147483648)
    (hpre : readU32BE mem i = (k % 4294967296).toNat) :
    tosc_getNextInt32 mem ⟨F, i, total⟩ = (k, ⟨F, i + 4, total⟩) := by
  show (toInt32 (readU32BE mem i), (⟨F, i + 4, total⟩ : tosc_tinyosc)) =
    (k, ⟨F, i + 4, total⟩)
  rw [hpre, toInt32_emod k hk1 hk2]

theorem getNextFloat_written (mem : Nat → Nat) (F i total : Nat) (bits : Nat)
    (hpre : readU32BE mem i = bits) :
    tosc_getNextFloat mem ⟨F, i, total⟩ = (bits, ⟨F, i + 4, total⟩) := by
  show (readU32BE mem i, (⟨F, i + 4, total⟩ : tosc_tinyosc)) = (bits, ⟨F, i + 4, total⟩)
  rw [hpre]

theorem getNextString_written (mem : Nat → Nat) (F i total : Nat) (s : List Nat)
    (hnz : ∀ k, k < s.length → mem (i + k) ≠ 0)
    (hbytes : ∀ k, k < s.length → mem (i + k) = s.getD k 0)
    (h0 : mem (i + s.length) = 0) (hlt : i + s.length < total) (hal : i % 4 = 0) :
    tosc_getNextString mem ⟨F, i, total⟩ =
      (some s, ⟨F, align4 (i + 4 + s.length), total⟩) := by
  have hsl : strlenAt mem total i = s.length := strlenAt_eq mem total i s.length hnz h0 hlt
  have h2 := getNextString_eq_some mem ⟨F, i, total⟩ (by
    show i + strlenAt mem total i < total
    omega)
  rw [h2]
  show (some (readBytes mem i (strlenAt mem total i)),
      (⟨F, i + align4 (strlenAt mem total i + 4), total⟩ : tosc_tinyosc)) =
    (some s, ⟨F, align4 (i + 4 + s.length), total⟩)
  rw [hsl, readBytes_eq mem s.length i s rfl hbytes,
    show i + align4 (s.length + 4) = align4 (i + 4 + s.length) by unfold align4; omega]

theorem getNextBlob_written (mem : Nat → Nat) (F i total : Nat) (n : Nat)
    (hn : n < 2147483648) (hpre : readU32BE mem i = n)
    (hfit : i + 4 + n ≤ total) (hal : i % 4 = 0) :
    tosc_getNextBlob mem ⟨F, i, total⟩ =
      ((some (i + 4), (n : Int)), ⟨F, align4 (i + 4 + 3 + n), total⟩) := by
  have h1 : toInt32 (readU32BE mem i) = (n : Int) := by
    rw [hpre]
    exact toInt32_of_lt n hn
  have h2 := getNextBlob_eq_some mem ⟨F, i, total⟩ (by
    show (i : Int) + 4 + toInt32 (readU32BE mem i) ≤ (total : Int)
    rw [h1]
    omega)
  rw [h2]
  show ((some (i + 4), toInt32 (readU32BE mem i)),
      (⟨F, ((i : Int) + 4 * ((toInt32 (readU32BE mem i) + 7) / 4)).toNat, total⟩ :
        tosc_tinyosc)) =
    ((some (i + 4), (n : Int)), ⟨F, align4 (i + 4 + 3 + n), total⟩)
  rw [h1, show ((i : Int) + 4 * (((n : Int) + 7) / 4)).toNat = align4 (i + 4 + 3 + n) by
    unfold align4; omega]

theorem writeArgs_extract (len : Nat) (hlen : len < 2147483648) :
    ∀ fmt args m i m' total F,
      writeArgs len fmt args m i = (m', Except.ok total) →
      validArgs fmt args = true → i % 4 = 0 →
      i ≤ total ∧ (∀ j, j < i → m' j = m j) ∧
      extractArgs m' fmt ⟨F, i, total⟩ = some (args, ⟨F, total, total⟩) := by
  intro fmt
  induction fmt with
  | nil =>
    intro args m i m' total F hw hv _
    unfold writeArgs at hw
    injection hw with hA hB
    injection hB with hB
    subst hA hB
    have hargs : args = [] := by
      unfold validArgs at hv
      exact List.isEmpty_iff.1 hv
    subst hargs
    exact ⟨Nat.le_refl _, fun j _ => rfl, rfl⟩
  | cons c fs ih =>
    intro args m i m' total F hw hv hal
    by_cases h98 : c = 98
    · subst h98
      cases args with
      | nil => simp [validArgs] at hv
      | cons a rest =>
        cases a with
        | i k => simp [validArgs] at hv
        | f bits => simp [validArgs] at hv
        | s str => simp [validArgs] at hv
        | b data =>
          simp [validArgs] at hv
          obtain ⟨hdata, hvrest⟩ := hv
          simp only [writeArgs] at hw
          by_cases hfit : len < i + 4 + data.length
          · rw [if_pos hfit] at hw
            rw [Prod.mk.injEq] at hw
            simp at hw
          · rw [if_neg hfit] at hw
            obtain ⟨hle, hframe, hext⟩ :=
              ih rest _ _ m' total F hw hvrest (align4_mod _)
            have hstep : i + 4 + data.length ≤ align4 (i + 4 + 3 + data.length) := by
              unfold align4; omega
            have hn32 : data.length < 2147483648 := by omega
            have hprefix : readU32BE m' i = data.length := by
              rw [readU32BE_congr m' (writeBytes m i (u32bytes data.length)) i ?_]
              · rw [readU32BE_u32bytes]; omega
              · intro j hj1 hj2
                rw [hframe j (by omega), writeBytes_lt _ _ _ _ (by omega)]
            have hdatabytes : readBytes m' (i + 4) data.length = data := by
              refine readBytes_eq m' data.length (i + 4) data rfl ?_
              intro k hk
              rw [hframe (i + 4 + k) (by omega),
                writeBytes_at' data _ (i + 4) (i + 4 + k) (by omega) (by omega),
                show i + 4 + k - (i + 4) = k by omega]
            have hblob := getNextBlob_written m' F i total data.length hn32 hprefix
              (by omega) hal
            refine ⟨by omega, ?_, ?_⟩
            · intro j hj
              rw [hframe j (by omega), writeBytes_lt _ _ _ _ (by omega),
                writeBytes_lt _ _ _ _ (by omega)]
            · simp [extractArgs, hblob, hext, Int.toNat_natCast, hdatabytes]
    · by_cases h102 : c = 102
      · subst h102
        cases args with
        | nil => simp [validArgs] at hv
        | cons a rest =>
          cases a with
          | i k => simp [validArgs] at hv
          | s str => simp [validArgs] at hv
          | b data => simp [validArgs] at hv
          | f bits =>
            simp [validArgs] at hv
            obtain ⟨hbits, hvrest⟩ := hv
            simp only [writeArgs] at hw
            by_cases hfit : len < i + 4
            · rw [if_pos hfit] at hw
              rw [Prod.mk.injEq] at hw
              simp at hw
            · rw [if_neg hfit] at hw
              obtain ⟨hle, hframe, hext⟩ := ih rest _ _ m' total F hw hvrest (by omega)
              have hprefix : readU32BE m' i = bits := by
                rw [readU32BE_congr m' (writeBytes m i (u32bytes bits)) i ?_]
                · rw [readU32BE_u32bytes]; omega
                · intro j hj1 hj2
                  exact hframe j (by omega)
              have hfl := getNextFloat_written m' F i total bits hprefix
              refine ⟨by omega, ?_, ?_⟩
              · intro j hj
                rw [hframe j (by omega), writeBytes_lt _ _ _ _ (by omega)]
              · simp [extractArgs, hfl, hext]
      · by_cases h105 : c = 105
        · subst h105
          cases args with
          | nil => simp [validArgs] at hv
          | cons a rest =>
            cases a with
            | f bits => simp [validArgs] at hv
            | s str => simp [validArgs] at hv
            | b data => simp [validArgs] at hv
            | i k =>
              simp [validArgs] at hv
              obtain ⟨hk, hvrest⟩ := hv
              simp only [writeArgs] at hw
              by_cases hfit : len < i + 4
              · rw [if_pos hfit] at hw
                rw [Prod.mk.injEq] at hw
                simp at hw
              · rw [if_neg hfit] at hw
                obtain ⟨hle, hframe, hext⟩ := ih rest _ _ m' total F hw hvrest (by omega)
                have hprefix : readU32BE m' i = (k % 4294967296).toNat := by
                  rw [readU32BE_congr m' (writeBytes m i
                    (u32bytes (k % 4294967296).toNat)) i ?_]
                  · rw [readU32BE_u32bytes]; omega
                  · intro j hj1 hj2
                    exact hframe j (by omega)
                have hint := getNextInt32_written m' F i total k hk.1 hk.2 hprefix
                refine ⟨by omega, ?_, ?_⟩
                · intro j hj
                  rw [hframe j (by omega), writeBytes_lt _ _ _ _ (by omega)]
                · simp [extractArgs, hint, hext]
        · by_cases h115 : c = 115
          · subst h115
            cases args with
            | nil => simp [validArgs] at hv
            | cons a rest =>
              cases a with
              | f bits => simp [validArgs] at hv
              | i k => simp [validArgs] at hv
              | b data => simp [validArgs] at hv
              | s str =>
                simp [validArgs] at hv
                obtain ⟨hstr, hvrest⟩ := hv
                simp only [writeArgs] at hw
                by_cases hfit : len ≤ i + str.length
                · rw [if_pos hfit] at hw
                  rw [Prod.mk.injEq] at hw
                  simp at hw
                · rw [if_neg hfit] at hw
                  obtain ⟨hle, hframe, hext⟩ :=
                    ih rest _ _ m' total F hw hvrest (align4_mod _)
                  have hstep : i + str.length + 1 ≤ align4 (i + 4 + str.length) := by
                    unfold align4; omega
                  have hbyte : ∀ k, k < str.length → m' (i + k) = str.getD k 0 := by
                    intro k hk
                    rw [hframe (i + k) (by omega),
                      strcpyAt_at m i str (i + k) (by omega) (by omega),
                      show i + k - i = k by omega]
                  have hstrpos : ∀ k, k < str.length → 0 < str.getD k 0 := by
                    intro k hk
                    have hmem : str.getD k 0 ∈ str := by
                      rw [List.getD_eq_getElem _ _ hk]
                      exact List.getElem_mem hk
                    exact (hstr _ hmem).1
                  have hs := getNextString_written m' F i total str
                    (fun k hk => by
                      rw [hbyte k hk]
                      have := hstrpos k hk
                      omega)
                    hbyte
                    (by rw [hframe (i + str.length) (by omega)]
                        exact strcpyAt_null m i str _ rfl)
                    (by omega) hal
                  refine ⟨by omega, ?_, ?_⟩
                  · intro j hj
                    rw [hframe j (by omega), strcpyAt_lt _ _ _ _ (by omega)]
                  · simp [extractArgs, hs, hext]
          · by_cases hT : c = 84 ∨ c = 70 ∨ c = 78 ∨ c = 73
            · simp only [writeArgs] at hw
              rw [if_neg h98, if_neg h102, if_neg h105, if_neg h115, if_pos hT] at hw
              simp only [validArgs] at hv
              rw [if_neg h98, if_neg h102, if_neg h105, if_neg h115, if_pos hT] at hv
              obtain ⟨hle, hframe, hext⟩ := ih args m i m' total F hw hv hal
              refine ⟨hle, hframe, ?_⟩
              simp only [extractArgs]
              rw [if_neg h98, if_neg h102, if_neg h105, if_neg h115, if_pos hT]
              exact hext
            · simp only [validArgs] at hv
              rw [if_neg h98, if_neg h102, if_neg h105, if_neg h115, if_neg hT] at hv
              simp at hv

/-- C1: for every valid `(address, format, args)` triple whose serialized
form fits the buffer (expressed as: `tosc_write` returns a byte count),
reading the written buffer with the returned length succeeds, the decoded
address and format strings equal the originals, and the argument iterator
applied in format order recovers exactly the original argument values. -/
theorem c1_roundtrip (len : Nat) (address format : List Nat) (args : List Arg)
    (hlen : len < 2147483648)
    (hA : validAddress address = true)
    (hV : validArgs format args = true)
    (total : Nat)
    (hw : (tosc_write len address format args).2 = Except.ok total) :
    tosc_read (tosc_write len address format args).1 total =
      Except.ok ⟨align4 (address.length + 4) + 1,
        align4 (align4 (address.length + 4) + 1 + 4 + format.length), total⟩ ∧
    readCStr (tosc_write len address format args).1 total 0 = address ∧
    readCStr (tosc_write len address format args).1 total
      (align4 (address.length + 4) + 1) = format ∧
    extractArgs (tosc_write len address format args).1 format
        ⟨align4 (address.length + 4) + 1,
          align4 (align4 (address.length + 4) + 1 + 4 + format.length), total⟩ =
      some (args, ⟨align4 (address.length + 4) + 1, total, total⟩) := by
  obtain ⟨h1, h2⟩ := tosc_write_ok_bounds len address format args total hw
  have haL : address.length < align4 (address.length + 4) := lt_align4_add_four _
  have hwrite := tosc_write_ok_unfold len address format args h1 h2
  set a := align4 (address.length + 4) with ha
  set i0 := align4 (a + 1 + 4 + format.length) with hi0
  set mh := strcpyAt (upd (strcpyAt (fun _ => 0) 0 address) a 44) (a + 1) format with hmh
  set w := (tosc_write len address format args).1 with hwdef
  have hwa : writeArgs len format args mh i0 = (w, Except.ok total) := by
    rw [hwdef, ← hwrite, ← hw]
  obtain ⟨hle, hframe, hext⟩ := writeArgs_extract len hlen format args mh i0 w total
    (a + 1) hwa hV (by rw [hi0]; exact align4_mod _)
  have hi0ge : a + 2 + format.length ≤ i0 := by
    rw [hi0]; unfold align4; omega
  have hfmtch := validArgs_chars format args hV
  have hmhe : ∀ j, mh j =
      (if j < address.length then address.getD j 0
       else if j = a then 44
       else if a + 1 ≤ j ∧ j < a + 1 + format.length then
         format.getD (j - (a + 1)) 0
       else 0) := by
    intro j
    rw [hmh, ha]
    exact mHdr_eval address format j
  have hwb : ∀ j, j < i0 → w j =
      (if j < address.length then address.getD j 0
       else if j = a then 44
       else if a + 1 ≤ j ∧ j < a + 1 + format.length then
         format.getD (j - (a + 1)) 0
       else 0) := by
    intro j hj
    rw [hframe j hj, hmhe j]
  have hcomma : commaIdx w total = a := by
    unfold commaIdx
    refine strscan_eq_exact w 44 total 0 a (Nat.zero_le a) (by omega) ?_ ?_
    · rw [hwb a (by omega), if_neg (by omega), if_pos rfl]
    · intro j hj0 hja
      rw [hwb j (by omega)]
      by_cases hja2 : j < address.length
      · rw [if_pos hja2]
        exact (validAddress_byte address hA j hja2).2.1
      · rw [if_neg hja2, if_neg (by omega), if_neg (by omega)]
        omega
  have hnull : fmtNullIdx w total = a + 1 + format.length := by
    unfold fmtNullIdx
    rw [hcomma]
    refine strscan_eq_exact w 0 (total - a) a (a + 1 + format.length)
      (by omega) (by omega) ?_ ?_
    · rw [hwb _ (by omega), if_neg (by omega), if_neg (by omega), if_neg (by omega)]
    · intro j hj1 hj2
      rw [hwb j (by omega)]
      by_cases hj3 : j = a
      · rw [if_neg (by omega), if_pos hj3]
        omega
      · rw [if_neg (by omega), if_neg hj3, if_pos (by omega)]
        have hmem : format.getD (j - (a + 1)) 0 ∈ format := by
          rw [List.getD_eq_getElem _ _ (by omega)]
          exact List.getElem_mem _
        have h6 := hfmtch _ hmem
        omega
  have hread : tosc_read w total = Except.ok ⟨a + 1, i0, total⟩ := by
    rcases tosc_read_cases w total with ⟨hc, _⟩ | ⟨_, hn, _⟩ | ⟨_, _, hr⟩
    · rw [hcomma] at hc
      omega
    · rw [hnull] at hn
      omega
    · rw [hcomma, hnull] at hr
      rw [hr, hi0, show a + 1 + format.length + 4 = a + 1 + 4 + format.length from by omega]
  have haddr : readCStr w total 0 = address := by
    unfold readCStr
    have hsl : strlenAt w total 0 = address.length := by
      refine strlenAt_eq w total 0 address.length ?_ ?_ ?_
      · intro k hk
        rw [show (0 : Nat) + k = k from by omega, hwb k (by omega), if_pos hk]
        exact (validAddress_byte address hA k hk).1
      · rw [show (0 : Nat) + address.length = address.length from by omega,
          hwb _ (by omega), if_neg (by omega), if_neg (by omega), if_neg (by omega)]
      · omega
    rw [hsl]
    refine readBytes_eq w address.length 0 address rfl ?_
    intro k hk
    rw [show (0 : Nat) + k = k from by omega, hwb k (by omega), if_pos hk]
  have hfmt : readCStr w total (a + 1) = format := by
    unfold readCStr
    have hsl : strlenAt w total (a + 1) = format.length := by
      refine strlenAt_eq w total (a + 1) format.length ?_ ?_ ?_
      · intro k hk
        rw [hwb (a + 1 + k) (by omega), if_neg (by omega), if_neg (by omega),
          if_pos (by omega)]
        have hmem : format.getD (a + 1 + k - (a + 1)) 0 ∈ format := by
          rw [List.getD_eq_getElem _ _ (by omega)]
          exact List.getElem_mem _
        have h6 := hfmtch _ hmem
        omega
      · rw [hwb (a + 1 + format.length) (by omega), if_neg (by omega),
          if_neg (by omega), if_neg (by omega)]
      · omega
    rw [hsl]
    refine readBytes_eq w format.length (a + 1) format rfl ?_
    intro k hk
    rw [hwb (a + 1 + k) (by omega), if_neg (by omega), if_neg (by omega),
      if_pos (by omega), show a + 1 + k - (a + 1) = k from by omega]
  exact ⟨hread, haddr, hfmt, hext⟩

/-- Closed instance of `c1_roundtrip`: address "/a", format "is", arguments
`(42, "hi")` — the encoded 16-byte message decodes back to the same address,
format, integer and string. -/
theorem c1_roundtrip_witness :
    tosc_read (tosc_write 32 [47, 97] [105, 115] [Arg.i 42, Arg.s [104, 105]]).1 16 =
      Except.ok ⟨5, 8, 16⟩ ∧
    readCStr (tosc_write 32 [47, 97] [105, 115] [Arg.i 42, Arg.s [104, 105]]).1 16 0 =
      [47, 97] ∧
    readCStr (tosc_write 32 [47, 97] [105, 115] [Arg.i 42, Arg.s [104, 105]]).1 16 5 =
      [105, 115] ∧
    extractArgs (tosc_write 32 [47, 97] [105, 115] [Arg.i 42, Arg.s [104, 105]]).1
        [105, 115] ⟨5, 8, 16⟩ =
      some ([Arg.i 42, Arg.s [104, 105]], ⟨5, 16, 16⟩) :=
  c1_roundtrip 32 [47, 97] [105, 115] [Arg.i 42, Arg.s [104, 105]] (by decide)
    (by decide) (by decide) 16 (by decide)
